import Mathlib

/-!
Verification development for the Triplet-Qwen repository.

The core under scrutiny is the triplet DSL codec (`agent_a.py`:
`_parse_triplet_response`, `_format_triplet`), the validation rule engine
(`agent_b.py`: `_check_structure`, `_check_argument_integrity`,
`_check_semantic_completeness`, `_check_recoverability`,
`_get_model_validation`, `validate_triplet`) and the bounded
extract-validate-revise loop (`dual_agent_system.py`: `process_sentence`).

Strings are modelled as `List Char` (Python `str` is a sequence of unicode
code points and here we index, slice and scan it character-wise).  The
regular-expression scans of `_parse_triplet_response` are modelled by
hand-rolled scanning functions whose stepping reproduces the leftmost-match
and non-overlapping-findall semantics of the three patterns used in the
source.  Python's `\w` (unicode word character) is modelled for the
character ranges occurring in this repository: ASCII alphanumerics, the
underscore and CJK unified ideographs; Python's `\s` and `str.strip()` are
modelled by the ASCII whitespace subset actually exercised.  The external
language-model calls (`generate_response`) and `json.loads` are modelled as
oracle parameters: the first as an `Except`-valued response (an `error`
value standing for a raised exception), the second as an abstract decoder
`List Char → Option Verdict`.
-/

/-- Python `\w` for the character ranges used in this repository:
ASCII alphanumerics, `_`, and CJK unified ideographs (U+4E00..U+9FFF). -/
def isWordChar (c : Char) : Bool :=
  c.isAlphanum || c == '_' || (0x4E00 ≤ c.toNat && c.toNat ≤ 0x9FFF)

/-- Whitespace as used by the source's `\s*` and `.strip()` (ASCII subset). -/
def isSpaceChar (c : Char) : Bool := c.isWhitespace

/-- The apostrophe character, used inside the source's issue messages. -/
def aposChar : Char := Char.ofNat 39

/-- Split a list at the first occurrence of `c`: returns the part strictly
before the first `c` and the part strictly after it, or `none` when `c`
does not occur. -/
def takeUntil (c : Char) : List Char → Option (List Char × List Char)
  | [] => none
  | x :: xs =>
    if x = c then some ([], xs)
    else
      match takeUntil c xs with
      | some (a, b) => some (x :: a, b)
      | none => none

/-- `str.strip()` on the modelled whitespace set. -/
def stripLC (l : List Char) : List Char :=
  ((l.dropWhile isSpaceChar).reverse.dropWhile isSpaceChar).reverse

/-- `str.lower()` (ASCII case mapping; identity on the CJK text used). -/
def lowerLC (l : List Char) : List Char := l.map Char.toLower

/-- Fuelled scanner for `re.findall(r'(\w+)="([^"]*)"', mods_str)`:
at each position, a match requires a maximal nonempty word-character run
immediately followed by `="`, then the value up to the next `"`; on success
scanning resumes after the closing quote (non-overlapping), on failure it
advances one character.  The fuel argument only forces structural
recursion; `scanPairs` below supplies enough fuel for any input. -/
def scanPairsF : Nat → List Char → List (List Char × List Char)
  | 0, _ => []
  | _ + 1, [] => []
  | fuel + 1, c :: rest =>
    if isWordChar c then
      match (c :: rest).dropWhile isWordChar with
      | '=' :: '"' :: tail =>
        match takeUntil '"' tail with
        | some (v, rest2) =>
          ((c :: rest).takeWhile isWordChar, v) :: scanPairsF fuel rest2
        | none => scanPairsF fuel rest
      | _ => scanPairsF fuel rest
    else scanPairsF fuel rest

/-- `re.findall(r'(\w+)="([^"]*)"', s)` (see `scanPairsF`). -/
def scanPairs (l : List Char) : List (List Char × List Char) :=
  scanPairsF l.length l

/-- `re.search(r'\{([^}]*)\}', response)`: the group is the text between
the first `{` of the string and the first `}` after it (if the first `{`
has no closing `}` after it, no later `{` can have one either, so the
search fails). -/
def modsInner (resp : List Char) : Option (List Char) :=
  match takeUntil '{' resp with
  | none => none
  | some (_, rest) =>
    match takeUntil '}' rest with
    | none => none
    | some (inner, _) => some inner

/-- `re.search(r'(\w+)\(([^,]*),\s*([^)]*)\)', response)`: leftmost
position where a maximal word run is immediately followed by `(`; group 2
runs to the first comma after the `(`, then whitespace is skipped and
group 3 runs to the first `)`.  On failure at a position the scan advances
one character, exactly as the regex engine does. -/
def findCall : List Char → Option (List Char × List Char × List Char)
  | [] => none
  | c :: rest =>
    if isWordChar c then
      match (c :: rest).dropWhile isWordChar with
      | '(' :: tail =>
        match takeUntil ',' tail with
        | some (g2, rest2) =>
          match takeUntil ')' (rest2.dropWhile isSpaceChar) with
          | some (g3, _) => some ((c :: rest).takeWhile isWordChar, g2, g3)
          | none => findCall rest
        | none => findCall rest
      | _ => findCall rest
    else findCall rest

/-- `subject if subject and subject.lower() != 'null' else None` applied to
a stripped regex group (`_parse_triplet_response`, lines 587-592). -/
def cleanArg (l : List Char) : Option (List Char) :=
  let s := stripLC l
  if s.isEmpty then none
  else if lowerLC s = "null".data then none
  else some s

/-- Python dict assignment `d[key] = value`: an existing key keeps its
position and gets the new value, a fresh key is appended. -/
def insertMod (m : List (List Char × List Char)) (kv : List Char × List Char) :
    List (List Char × List Char) :=
  if m.any (fun p => p.1 == kv.1) then
    m.map (fun p => if p.1 == kv.1 then (p.1, kv.2) else p)
  else m ++ [kv]

/-- The triplet dictionary produced by `AgentA._parse_triplet_response`. -/
structure TripletData where
  sentence : List Char
  mods : List (List Char × List Char)
  predicate : Option (List Char)
  subject : Option (List Char)
  object : Option (List Char)
  raw : List Char
deriving DecidableEq, Repr

/-- The mods dictionary built by `_parse_triplet_response`. -/
def parseMods (response : List Char) : List (List Char × List Char) :=
  match modsInner response with
  | some inner => (scanPairs inner).foldl insertMod []
  | none => []

/-- `AgentA._parse_triplet_response(response, sentence)` (agent_a.py
lines 516-594).  Never fails: a total grammar mismatch yields a record of
`none` fields with `raw = response.strip()`. -/
def parseTriplet (response sentence : List Char) : TripletData :=
  { sentence := sentence
  , mods := parseMods response
  , predicate := (findCall response).map (fun r => r.1)
  , subject :=
      match findCall response with
      | some (_, g2, _) => cleanArg g2
      | none => none
  , object :=
      match findCall response with
      | some (_, _, g3) => cleanArg g3
      | none => none
  , raw := stripLC response }

/-- One `k="v"` fragment of the serialized mods block. -/
def renderPair (p : List Char × List Char) : List Char :=
  p.1 ++ '=' :: '"' :: p.2 ++ [ '"' ]

/-- `sep.join(xs)`. -/
def joinSep (sep : List Char) : List (List Char) → List Char
  | [] => []
  | [x] => x
  | x :: y :: xs => x ++ sep ++ joinSep sep (y :: xs)

/-- Python's `value or default` for the optional string fields (`None` and
the empty string are both falsy). -/
def pyOr (o : Option (List Char)) (d : List Char) : List Char :=
  match o with
  | some s => if s.isEmpty then d else s
  | none => d

/-- `AgentA._format_triplet` (agent_a.py lines 596-637): renders
`{k1="v1", k2="v2"} Pred(Subj, Obj)`, omitting the braces block iff the
joined mods string is empty; absent/empty subject and object render as
`null`, an absent/empty predicate as `Unknown`. -/
def formatTriplet (t : TripletData) : List Char :=
  let modsStr := joinSep (", ".data) (t.mods.map renderPair)
  let subj := pyOr t.subject ("null".data)
  let obj := pyOr t.object ("null".data)
  let pred := pyOr t.predicate ("Unknown".data)
  if modsStr.isEmpty then
    pred ++ '(' :: subj ++ ',' :: ' ' :: obj ++ [ ')' ]
  else
    '{' :: modsStr ++ '}' :: ' ' :: pred ++ '(' :: subj ++ ',' :: ' ' :: obj ++ [ ')' ]

/-! ## Agent B: validation rule engine (`agent_b.py`) -/

/-- Python's substring test `pat in s` (contiguous substring). -/
def isSubLC (pat : List Char) : List Char → Bool
  | [] => pat.isEmpty
  | c :: rest => pat.isPrefixOf (c :: rest) || isSubLC pat rest

/-- Result of one of the syntactic checks: `{'valid': bool, 'issues': [...]}`. -/
structure CheckResult where
  valid : Bool
  issues : List (List Char)
deriving DecidableEq, Repr

/-- Python truthiness of an optional string (`None` and `''` are falsy). -/
def pyFalsy (o : Option (List Char)) : Bool :=
  match o with
  | none => true
  | some s => s.isEmpty

/-- `AgentB._check_structure` (agent_b.py lines 144-164): flags a missing
predicate and a missing subject; the `isinstance(mods, dict)` test cannot
fail in this typed model, where `mods` is always a key/value list. -/
def checkStructure (t : TripletData) : CheckResult :=
  let issues :=
    (if pyFalsy t.predicate then [ "缺失谓词信息".data ] else []) ++
    (if pyFalsy t.subject then [ "缺失主语信息".data ] else [])
  { valid := issues.isEmpty, issues := issues }

/-- `any(x in mod_value for x in ['在', '从', '给', '对'])`. -/
def attrCue (v : List Char) : Bool :=
  [ '在', '从', '给', '对' ].any (fun c => v.contains c)

/-- Issue text `f"属性修饰'{v}'应该保留在Subject/Object中，而非作为独立的mods"`. -/
def attrIssue (v : List Char) : List Char :=
  "属性修饰".data ++ aposChar :: v ++ aposChar ::
    "应该保留在Subject/Object中，而非作为独立的mods".data

/-- Issue text `f"location修饰语'{v}'可能过于简化，应保留完整的位置表达"`. -/
def locIssue (v : List Char) : List Char :=
  "location修饰语".data ++ aposChar :: v ++ aposChar ::
    "可能过于简化，应保留完整的位置表达".data

/-- `AgentB._check_argument_integrity` (agent_b.py lines 166-219): flags an
`attribute` modifier whose text has no locative cue, and a `location`
modifier shorter than two characters; rules 3 and 4 of the source are
`pass` bodies and contribute nothing. -/
def checkArgumentIntegrity (_sentence : List Char) (t : TripletData) : CheckResult :=
  let attrIssues := t.mods.filterMap (fun kv =>
    if kv.1 == "attribute".data && !kv.2.isEmpty && !attrCue kv.2 then
      some (attrIssue kv.2)
    else none)
  let locIssues :=
    match List.lookup ("location".data) t.mods with
    | some loc => if loc.length < 2 then [ locIssue loc ] else []
    | none => []
  let issues := attrIssues ++ locIssues
  { valid := issues.isEmpty, issues := issues }

/-- The time-trigger keyword list of `_check_semantic_completeness`
(the duplicated `'daily'` of the source is kept). -/
def timeKeywords : List (List Char) :=
  [ "每天".data, "每月".data, "每年".data, "早上".data, "晚上".data,
    "昨天".data, "今天".data, "明天".data, "今年".data, "去年".data,
    "every".data, "daily".data, "daily".data, "morning".data, "evening".data,
    "yesterday".data, "today".data, "tomorrow".data ]

/-- The location-trigger keyword list of `_check_semantic_completeness`. -/
def locationKeywords : List (List Char) :=
  [ "在".data, "地".data, "处".data, "里".data, "上".data,
    "at".data, "in".data, "on".data, "near".data ]

/-- `any(keyword in sentence for keyword in keys)` (substring tests). -/
def containsAny (sentence : List Char) (keys : List (List Char)) : Bool :=
  keys.any (fun k => isSubLC k sentence)

/-- Issue text `f"主语'{s}'不在原句中"`. -/
def subjIssue (s : List Char) : List Char :=
  "主语".data ++ aposChar :: s ++ aposChar :: "不在原句中".data

/-- Issue text `f"宾语'{s}'不在原句中"`. -/
def objIssue (s : List Char) : List Char :=
  "宾语".data ++ aposChar :: s ++ aposChar :: "不在原句中".data

/-- `AgentB._check_semantic_completeness` (agent_b.py lines 221-259).
The source's first statement is `triplet.get('predicate', '').lower()`;
when the `predicate` key holds `None` (as every soft-parse failure does)
this raises `AttributeError`, modelled by `Except.error ()`.  Otherwise the
check verifies that the lowered subject/object occur in the lowered
sentence and that time/location trigger keywords in the (unlowered)
sentence are matched by `time`/`location` modifier keys. -/
def checkSemanticCompleteness (sentence : List Char) (t : TripletData) :
    Except Unit CheckResult :=
  match t.predicate with
  | none => Except.error ()
  | some _ =>
    let subject :=
      match t.subject with
      | some s => if s.isEmpty then [] else lowerLC s
      | none => []
    let obj :=
      match t.object with
      | some s => if s.isEmpty then [] else lowerLC s
      | none => []
    let sentenceLower := lowerLC sentence
    let issues :=
      (if !subject.isEmpty && !(isSubLC subject sentenceLower) then
        [ subjIssue subject ] else []) ++
      (if !obj.isEmpty && !(isSubLC obj sentenceLower) then
        [ objIssue obj ] else []) ++
      (if containsAny sentence timeKeywords &&
          (List.lookup ("time".data) t.mods).isNone then
        [ "句子中有时间信息但三元组缺失time修饰语".data ] else []) ++
      (if containsAny sentence locationKeywords &&
          (List.lookup ("location".data) t.mods).isNone then
        [ "句子中有地点信息但三元组缺失location修饰语".data ] else [])
    Except.ok { valid := issues.isEmpty, issues := issues }

/-- A truthy optional string as a one-element list (for `parts.append`). -/
def optPart (o : Option (List Char)) : List (List Char) :=
  match o with
  | some s => if s.isEmpty then [] else [s]
  | none => []

/-- `AgentB._reconstruct_sentence`: concatenates all modifier values, then
the truthy subject, predicate and object; `[无法重构]` when nothing was
collected. -/
def reconstructSentence (t : TripletData) : List Char :=
  let parts := t.mods.map Prod.snd ++ optPart t.subject ++
    optPart t.predicate ++ optPart t.object
  if parts.isEmpty then "[无法重构]".data else parts.flatten

/-- Result of `_check_recoverability`, which also carries the
reconstructed sentence. -/
structure RecCheckResult where
  valid : Bool
  issues : List (List Char)
  recovered : List Char
deriving DecidableEq, Repr

/-- `AgentB._check_recoverability` (agent_b.py lines 261-284): fails when
the predicate is falsy or not a verbatim substring of the sentence, and
when `mods` is empty while the sentence contains `在`, `每` or `很`. -/
def checkRecoverability (sentence : List Char) (t : TripletData) : RecCheckResult :=
  let predIssues :=
    match t.predicate with
    | none => [ "无法从三元组恢复原句的谓词信息".data ]
    | some p =>
      if p.isEmpty || !(isSubLC p sentence) then
        [ "无法从三元组恢复原句的谓词信息".data ]
      else []
  let modsIssues :=
    if t.mods.isEmpty &&
        (sentence.contains '在' || sentence.contains '每' || sentence.contains '很') then
      [ "丢失了重要的修饰语信息，无法完整恢复原句".data ]
    else []
  let issues := predIssues ++ modsIssues
  { valid := issues.isEmpty, issues := issues,
    recovered := reconstructSentence t }

/-- The structured verdict `_get_model_validation` tries to read from the
judge's response; every field is optional (`parsed.get(..., default)`). -/
structure Verdict where
  complete : Option Bool
  missing_info : Option (List (List Char))
  recoverable : Option Bool
  suggestions : Option (List (List Char))

/-- The record returned by `_get_model_validation`.  In the source's
exception branch the `missing_info`/`suggestions` keys are absent; since
`_generate_feedback` reads them with a falsy-tolerant `.get`, absence is
modelled by the (behaviourally equivalent) empty list. -/
structure MFeedback where
  valid : Bool
  missing_info : List (List Char)
  suggestions : List (List Char)
deriving DecidableEq, Repr

/-- `response[response.find('{') : response.rfind('}') + 1]` guarded by
`start_idx >= 0 and end_idx > start_idx`: the slice from the first `{` to
the last `}` when the latter lies after the former. -/
def jsonSlice (r : List Char) : Option (List Char) :=
  match takeUntil '{' r with
  | none => none
  | some (_, rest) =>
    match takeUntil '}' rest.reverse with
    | none => none
    | some (_, revBefore) => some ('{' :: (revBefore.reverse ++ [ '}' ]))

/-- The keyword heuristic `_get_model_validation` falls back to when no
verdict block can be decoded from the response text. -/
def textFallback (r : List Char) : MFeedback :=
  let isComplete :=
    (isSubLC ("complete".data) (lowerLC r)) && !(isSubLC ("不完整".data) r)
  let isRecoverable :=
    (isSubLC ("recoverable".data) (lowerLC r)) || (isSubLC ("可恢复".data) r)
  { valid := isComplete && isRecoverable, missing_info := [], suggestions := [] }

/-- `AgentB._get_model_validation` (agent_b.py lines 286-357), with the
model call abstracted to its outcome `resp` (`error` = the call raised)
and `json.loads` on the brace-delimited slice abstracted to `jdec`
(`none` = `JSONDecodeError`).  A raised call fail-opens to `valid = true`;
an undecodable response falls back to the keyword heuristic. -/
def getModelValidation (resp : Except Unit (List Char))
    (jdec : List Char → Option Verdict) : MFeedback :=
  match resp with
  | Except.error _ => { valid := true, missing_info := [], suggestions := [] }
  | Except.ok r =>
    match jsonSlice r with
    | some js =>
      match jdec js with
      | some v =>
        { valid := (v.complete.getD true) && (v.recoverable.getD true)
        , missing_info := v.missing_info.getD []
        , suggestions := v.suggestions.getD [] }
      | none => textFallback r
    | none => textFallback r

/-- `'; '.join(parts)`. -/
def joinSemi (parts : List (List Char)) : List Char :=
  joinSep ("; ".data) parts

/-- `AgentB._generate_feedback` (agent_b.py lines 359-395). -/
def generateFeedback (sc ac cc : CheckResult) (rc : RecCheckResult)
    (mc : MFeedback) (isValid : Bool) : List Char :=
  if isValid then "✓ 三元组完整且正确，无需修改".data
  else
    let parts :=
      (if !sc.valid then [ "结构问题: ".data ++ joinSemi sc.issues ] else []) ++
      (if !ac.valid then [ "论元完整性问题: ".data ++ joinSemi ac.issues ] else []) ++
      (if !cc.valid then [ "完整性问题: ".data ++ joinSemi cc.issues ] else []) ++
      (if !rc.valid then [ "可恢复性问题: ".data ++ joinSemi rc.issues ] else []) ++
      (if !mc.missing_info.isEmpty then
        [ "缺失信息: ".data ++ joinSemi mc.missing_info ] else []) ++
      (if !mc.suggestions.isEmpty then
        [ "改进建议: ".data ++ joinSemi mc.suggestions ] else [])
    if parts.isEmpty then "需要改进".data else joinSemi parts

/-- The record returned by `AgentB.validate_triplet`. -/
structure ValidationResult where
  sentence : List Char
  triplet : TripletData
  is_valid : Bool
  structure_check : CheckResult
  argument_integrity_check : CheckResult
  completeness_check : CheckResult
  recoverability_check : RecCheckResult
  model_feedback : MFeedback
  feedback : List Char
deriving DecidableEq, Repr

/-- `AgentB.validate_triplet` (agent_b.py lines 73-142): runs the five
checks in order and conjoins their `valid` flags.  The `AttributeError`
raised inside `_check_semantic_completeness` when the predicate is `None`
propagates (nothing catches it), modelled by `Except.error`. -/
def validateTriplet (sentence : List Char) (t : TripletData)
    (resp : Except Unit (List Char)) (jdec : List Char → Option Verdict) :
    Except Unit ValidationResult :=
  let sc := checkStructure t
  let ac := checkArgumentIntegrity sentence t
  match checkSemanticCompleteness sentence t with
  | Except.error e => Except.error e
  | Except.ok cc =>
    let rc := checkRecoverability sentence t
    let mc := getModelValidation resp jdec
    let isValid := sc.valid && ac.valid && cc.valid && rc.valid && mc.valid
    Except.ok
      { sentence := sentence
      , triplet := t
      , is_valid := isValid
      , structure_check := sc
      , argument_integrity_check := ac
      , completeness_check := cc
      , recoverability_check := rc
      , model_feedback := mc
      , feedback := generateFeedback sc ac cc rc mc isValid }

/-! ## The revision loop (`dual_agent_system.py`)

`DualAgentSystem.process_sentence` drives the two agents.  For the loop
claims the agents are abstracted to oracles over an opaque triplet type
`α`: the initial extraction yields `Except.error` exactly when
`AgentA._extract_single_triplet` caught an exception and returned its
error record; `reviseResp i t` is the outcome of the `generate_response`
call of the `i`-th revision (`error` = the call raised); `validateAt k t`
is the `is_valid` verdict of the `k`-th `validate_triplet` call of the run
(the model-backed validator may answer differently on every call).  This
abstraction keeps exactly the control flow of `process_sentence`. -/

/-- The terminal status of a `process_sentence` run: the accepted return,
the `max_iterations_reached` return, or the propagated initial extraction
error record. -/
inductive RunStatus
  | accepted
  | maxIterationsReached
  | extractionFailed
deriving DecidableEq, Repr

/-- Oracles for the two agents, per run (see the section comment). -/
structure AgentOracle (α : Type) where
  extractResp : Except Unit α
  reviseResp : Nat → α → Except Unit α
  validateAt : Nat → α → Bool

/-- `AgentA.revise_triplet` (agent_a.py lines 319-353): a raised model
call is caught inside the method and the original triplet is returned. -/
def reviseStep {α : Type} (resp : Except Unit α) (orig : α) : α :=
  match resp with
  | Except.ok t => t
  | Except.error _ => orig

/-- Observable outcome of one `process_sentence` run. -/
structure RunResult (α : Type) where
  status : RunStatus
  iterations : Nat
  isValidFlag : Bool
  finalTriplet : Option α
  loopValidations : List Bool
  finalValidation : Option Bool
  extractCalls : Nat
deriving Repr

/-- The `while iteration < max_iterations` body of `process_sentence`
(dual_agent_system.py lines 62-123).  `remaining` is
`max_iterations - iteration`; `vals` accumulates the in-loop validation
verdicts in reverse; `ec` counts extractor invocations so far.  When the
loop exits without acceptance the source validates the current triplet one
more time and returns the `max_iterations_reached` record. -/
def processLoop {α : Type} (ag : AgentOracle α) (maxIter : Nat) :
    Nat → Nat → α → List Bool → Nat → RunResult α
  | 0, iter, current, vals, ec =>
    let fv := ag.validateAt (iter + 1) current
    { status := RunStatus.maxIterationsReached
    , iterations := maxIter
    , isValidFlag := fv
    , finalTriplet := some current
    , loopValidations := vals.reverse
    , finalValidation := some fv
    , extractCalls := ec }
  | remaining + 1, iter, current, vals, ec =>
    let iteration := iter + 1
    let v := ag.validateAt iteration current
    if v then
      { status := RunStatus.accepted
      , iterations := iteration
      , isValidFlag := true
      , finalTriplet := some current
      , loopValidations := (v :: vals).reverse
      , finalValidation := none
      , extractCalls := ec }
    else
      if remaining ≥ 1 then
        let current' := reviseStep (ag.reviseResp iteration current) current
        processLoop ag maxIter remaining iteration current' (v :: vals) (ec + 1)
      else
        processLoop ag maxIter remaining iteration current (v :: vals) ec

/-- `DualAgentSystem.process_sentence` (dual_agent_system.py lines
37-123): one initial extraction (already one extractor invocation, even
when it raised and was converted to the error record), then the bounded
validate/revise loop. -/
def processSentence {α : Type} (ag : AgentOracle α) (maxIter : Nat) : RunResult α :=
  match ag.extractResp with
  | Except.error _ =>
    { status := RunStatus.extractionFailed
    , iterations := 0
    , isValidFlag := false
    , finalTriplet := none
    , loopValidations := []
    , finalValidation := none
    , extractCalls := 1 }
  | Except.ok t => processLoop ag maxIter maxIter 0 t [] 1

/-- All validation verdicts produced during a run, in order: the in-loop
ones followed by the post-loop revalidation (when it happened). -/
def allValidations {α : Type} (r : RunResult α) : List Bool :=
  r.loopValidations ++
    (match r.finalValidation with
     | some b => [b]
     | none => [])

/-! ## Well-formedness for the guarded round-trip, and concrete claim inputs -/

/-- A nonempty run of word characters (legal predicate / modifier key). -/
def goodKeyB (k : List Char) : Bool :=
  !k.isEmpty && k.all isWordChar

/-- Modifier-value text made of word characters and plain spaces. -/
def goodValB (v : List Char) : Bool :=
  v.all (fun c => isWordChar c || c == ' ')

/-- Plain argument text: nonempty, word characters and inner spaces only,
no leading/trailing space, and not spelling `null` case-insensitively. -/
def goodArgB (s : List Char) : Bool :=
  !s.isEmpty && s.all (fun c => isWordChar c || c == ' ') &&
  !(s.head? == some ' ') && !(s.getLast? == some ' ') &&
  !(lowerLC s == "null".data)

/-- Pairwise-distinct modifier keys (a Python dict cannot repeat keys). -/
def nodupKeysB : List (List Char × List Char) → Bool
  | [] => true
  | kv :: rest => !(rest.any (fun p => p.1 == kv.1)) && nodupKeysB rest

/-- Triplets whose serialized form contains no grammar metacharacters in
value position: the guard under which the round-trip law holds. -/
def wellFormedB (t : TripletData) : Bool :=
  (match t.predicate with
   | some p => goodKeyB p
   | none => false) &&
  (match t.subject with
   | some s => goodArgB s
   | none => true) &&
  (match t.object with
   | some s => goodArgB s
   | none => true) &&
  t.mods.all (fun kv => goodKeyB kv.1 && goodValB kv.2) &&
  nodupKeysB t.mods

/-- Character class appearing in a serialized call `Pred(Subj, Obj)`
whose fields are well-formed. -/
def plainCallChar (c : Char) : Bool :=
  isWordChar c || c == ' ' || c == '(' || c == ')' || c == ','

/-- Character class appearing in a serialized well-formed mods block body. -/
def modsChar (c : Char) : Bool :=
  isWordChar c || c == ' ' || c == ',' || c == '=' || c == '"'

/-- Sentence of the spec's end-to-end scenario 2. -/
def sentenceS2 : List Char := "她用钉子仔细地钉住了这块木板。".data

/-- Candidate triplet of the spec's end-to-end scenario 2. -/
def tripletS2 : TripletData :=
  { sentence := sentenceS2
  , mods := [ ("tool".data, "用钉子".data), ("manner".data, "仔细".data) ]
  , predicate := some ("钉住".data)
  , subject := some ("她".data)
  , object := some ("这块木板".data)
  , raw := [] }

/-- A soft-parse-failure triplet (predicate `None`), as produced by
`_parse_triplet_response` on unstructured text. -/
def tripletNoPred : TripletData :=
  { sentence := [], mods := [], predicate := none
  , subject := none, object := none, raw := [] }

/-- A run whose initial extraction succeeds, whose revision calls all
raise, and whose validator always rejects. -/
def agOracleC5 : AgentOracle Unit :=
  { extractResp := Except.ok ()
  , reviseResp := fun _ _ => Except.error ()
  , validateAt := fun _ _ => false }

/-- A run whose initial extraction succeeds and whose validator always
accepts. -/
def agOracleC6 : AgentOracle Unit :=
  { extractResp := Except.ok ()
  , reviseResp := fun _ _ => Except.ok ()
  , validateAt := fun _ _ => true }

/-- A run whose initial extraction raises. -/
def agOracleFail : AgentOracle Unit :=
  { extractResp := Except.error ()
  , reviseResp := fun _ _ => Except.ok ()
  , validateAt := fun _ _ => true }

/-- A triplet exercising the guarded round-trip at a concrete input. -/
def tripletRT : TripletData :=
  { sentence := "小明每天早上在公园跑步。".data
  , mods := [ ("time".data, "每天早上".data), ("location".data, "在公园".data) ]
  , predicate := some ("跑步".data)
  , subject := some ("小明".data)
  , object := none
  , raw := [] }

example :
    parseTriplet ("\x7btime=\"每天\"\x7d 跑步(小明, null)".data) ("小明每天跑步。".data) =
      { sentence := "小明每天跑步。".data
      , mods := [ ("time".data, "每天".data) ]
      , predicate := some ("跑步".data)
      , subject := some ("小明".data)
      , object := none
      , raw := "\x7btime=\"每天\"\x7d 跑步(小明, null)".data } := by decide

example :
    formatTriplet
      { sentence := []
      , mods := [ ("time".data, "每天".data) ]
      , predicate := some ("跑步".data)
      , subject := some ("小明".data)
      , object := none
      , raw := [] } = "\x7btime=\"每天\"\x7d 跑步(小明, null)".data := by decide

/-! ## Basic lemmas about the scanning primitives -/

theorem takeUntil_not_mem {c : Char} : ∀ {l : List Char}, c ∉ l → takeUntil c l = none
  | [], _ => rfl
  | x :: xs, h => by
    have hx : ¬ x = c := fun he => h (he ▸ List.mem_cons_self x xs)
    have hxs : c ∉ xs := fun hm => h (List.mem_cons_of_mem _ hm)
    rw [takeUntil, if_neg hx, takeUntil_not_mem hxs]

theorem takeUntil_append {c : Char} :
    ∀ {a : List Char} (b : List Char), c ∉ a → takeUntil c (a ++ c :: b) = some (a, b)
  | [], b, _ => by simp [takeUntil]
  | x :: xs, b, h => by
    have hx : ¬ x = c := fun he => h (he ▸ List.mem_cons_self x xs)
    have hxs : c ∉ xs := fun hm => h (List.mem_cons_of_mem _ hm)
    rw [List.cons_append, takeUntil, if_neg hx, takeUntil_append b hxs]

theorem takeUntil_parts {c : Char} :
    ∀ {l a b : List Char}, takeUntil c l = some (a, b) → l = a ++ c :: b := by
  intro l
  induction l with
  | nil => intro a b h; simp [takeUntil] at h
  | cons x xs ih =>
    intro a b h
    rw [takeUntil] at h
    by_cases hx : x = c
    · rw [if_pos hx] at h
      obtain ⟨rfl, rfl⟩ := by simpa using h
      simp [hx]
    · rw [if_neg hx] at h
      cases htu : takeUntil c xs with
      | none => rw [htu] at h; simp at h
      | some ab =>
        obtain ⟨a', b'⟩ := ab
        rw [htu] at h
        obtain ⟨rfl, rfl⟩ : x :: a' = a ∧ b' = b := by simpa using h
        simpa using ih htu

theorem findCall_eq_none : ∀ {l : List Char}, '(' ∉ l → findCall l = none := by
  intro l
  induction l with
  | nil => intro; rfl
  | cons c rest ih =>
    intro h
    have hrest : '(' ∉ rest := fun hm => h (List.mem_cons_of_mem _ hm)
    rw [findCall]
    by_cases hw : isWordChar c
    · rw [if_pos hw]
      cases hd : (c :: rest).dropWhile isWordChar with
      | nil => exact ih hrest
      | cons d tl =>
        have hdin : d ∈ c :: rest := by
          have : d ∈ (c :: rest).dropWhile isWordChar := by
            rw [hd]; exact List.mem_cons_self d tl
          exact (List.dropWhile_sublist _).mem this
        have hdne : d ≠ '(' := fun he => h (he ▸ hdin)
        split
        · next heq =>
            exfalso
            injection heq with hinj _
            exact hdne hinj
        · exact ih hrest
    · rw [if_neg hw]; exact ih hrest

/-! ## C7: soft parse failure -/

/-- C7 (amended): parsing never raises, and on any input with no `(` and
no `}` (hence no call match and no closed mods block — a total grammar
mismatch) it returns `None` predicate/subject/object, empty mods and
`raw` equal to the *stripped* input text. -/
theorem parse_soft_failure (s sent : List Char) (h1 : '(' ∉ s) (h2 : '}' ∉ s) :
    parseTriplet s sent =
      { sentence := sent, mods := [], predicate := none, subject := none,
        object := none, raw := stripLC s } := by
  have hfc : findCall s = none := findCall_eq_none h1
  have hmods : parseMods s = [] := by
    unfold parseMods modsInner
    cases htu : takeUntil '{' s with
    | none => rfl
    | some ab =>
      obtain ⟨a, b⟩ := ab
      have hb : '}' ∉ b := by
        intro hmem
        exact h2 ((takeUntil_parts htu) ▸ (by simp [hmem]))
      simp [takeUntil_not_mem hb]
  simp [parseTriplet, hfc, hmods]

/-- C7 witness: the spec's own example input has no structure characters
at all, so the theorem applies; its `raw` equals the input because the
input carries no surrounding whitespace. -/
theorem parse_soft_failure_witness :
    parseTriplet ("garbage text with no structure".data) [] =
      { sentence := [], mods := [], predicate := none, subject := none,
        object := none, raw := stripLC ("garbage text with no structure".data) } :=
  parse_soft_failure ("garbage text with no structure".data) [] (by decide) (by decide)

/-- C7 counterexample: on the total grammar mismatch `" garbage "`,
`raw` is the stripped text `"garbage"`, not the input text, refuting
`raw = text` as stated. -/
theorem parse_raw_strips_whitespace :
    parseTriplet (" garbage ".data) [] =
      { sentence := [], mods := [], predicate := none, subject := none,
        object := none, raw := "garbage".data } ∧
    ("garbage".data : List Char) ≠ " garbage ".data := by
  constructor
  · decide
  · decide

/-! ## C9: structural rule -/

/-- C9: for any triplet with a non-empty predicate (the mods list of this
model is always a well-formed role/text mapping), the structural check
fails with the missing-subject issue when the subject is absent, and
passes when a non-empty subject is present, whatever the object is. -/
theorem structural_check_rule (sent raw : List Char)
    (mods : List (List Char × List Char)) (p : List Char)
    (obj : Option (List Char)) (hp : p ≠ []) :
    ((checkStructure
        { sentence := sent, mods := mods, predicate := some p,
          subject := none, object := obj, raw := raw }).valid = false ∧
      "缺失主语信息".data ∈
        (checkStructure
          { sentence := sent, mods := mods, predicate := some p,
            subject := none, object := obj, raw := raw }).issues) ∧
    ∀ s : List Char, s ≠ [] →
      (checkStructure
        { sentence := sent, mods := mods, predicate := some p,
          subject := some s, object := obj, raw := raw }).valid = true := by
  have hpe : p.isEmpty = false := by
    cases p with
    | nil => exact absurd rfl hp
    | cons a l => rfl
  constructor
  · constructor
    · simp [checkStructure, pyFalsy, hpe]
    · simp [checkStructure, pyFalsy, hpe]
  · intro s hs
    have hse : s.isEmpty = false := by
      cases s with
      | nil => exact absurd rfl hs
      | cons a l => rfl
    simp [checkStructure, pyFalsy, hpe, hse]

/-- C9 witness: the spec's own instances (`跑步` with missing subject,
then with subject `小明`). -/
theorem structural_check_rule_witness :
    ((checkStructure
        { sentence := [], mods := [], predicate := some ("跑步".data),
          subject := none, object := none, raw := [] }).valid = false ∧
      "缺失主语信息".data ∈
        (checkStructure
          { sentence := [], mods := [], predicate := some ("跑步".data),
            subject := none, object := none, raw := [] }).issues) ∧
    (checkStructure
      { sentence := [], mods := [], predicate := some ("跑步".data),
        subject := some ("小明".data), object := none, raw := [] }).valid = true :=
  ⟨(structural_check_rule [] [] [] ("跑步".data) none (by decide)).1,
   (structural_check_rule [] [] [] ("跑步".data) none (by decide)).2
     ("小明".data) (by decide)⟩

/-! ## C10: formatting collapses empty and absent fields -/

/-- C10: `_format_triplet` renders an empty-string subject or object
exactly like an absent one (`null`), and an absent or empty predicate as
the `Unknown` placeholder, so the wire format cannot distinguish them and
never emits an empty call head. -/
theorem format_collapse (sent raw : List Char)
    (mods : List (List Char × List Char)) (pred subj obj : Option (List Char)) :
    formatTriplet
        { sentence := sent, mods := mods, predicate := pred,
          subject := some [], object := obj, raw := raw } =
      formatTriplet
        { sentence := sent, mods := mods, predicate := pred,
          subject := none, object := obj, raw := raw } ∧
    formatTriplet
        { sentence := sent, mods := mods, predicate := pred,
          subject := subj, object := some [], raw := raw } =
      formatTriplet
        { sentence := sent, mods := mods, predicate := pred,
          subject := subj, object := none, raw := raw } ∧
    formatTriplet
        { sentence := sent, mods := mods, predicate := none,
          subject := subj, object := obj, raw := raw } =
      formatTriplet
        { sentence := sent, mods := mods, predicate := some ("Unknown".data),
          subject := subj, object := obj, raw := raw } ∧
    formatTriplet
        { sentence := sent, mods := mods, predicate := some [],
          subject := subj, object := obj, raw := raw } =
      formatTriplet
        { sentence := sent, mods := mods, predicate := none,
          subject := subj, object := obj, raw := raw } :=
  ⟨rfl, rfl, rfl, rfl⟩

/-! ## C2: termination and attempt bound of the revision loop -/

theorem processLoop_extractCalls_le {α : Type} (ag : AgentOracle α) (m : Nat) :
    ∀ (rem iter : Nat) (cur : α) (vals : List Bool) (ec : Nat),
      (processLoop ag m rem iter cur vals ec).extractCalls ≤ ec + rem := by
  intro rem
  induction rem with
  | zero => intro iter cur vals ec; simp [processLoop]
  | succ r ih =>
    intro iter cur vals ec
    rw [processLoop]
    by_cases hv : ag.validateAt (iter + 1) cur
    · simp only [hv, if_true]
      omega
    · simp only [hv, if_false, Bool.false_eq_true]
      by_cases hr : r ≥ 1
      · rw [if_pos hr]
        calc (processLoop ag m r (iter + 1) _ _ (ec + 1)).extractCalls
            ≤ (ec + 1) + r := ih _ _ _ _
          _ ≤ ec + (r + 1) := by omega
      · rw [if_neg hr]
        calc (processLoop ag m r (iter + 1) cur _ ec).extractCalls
            ≤ ec + r := ih _ _ _ _
          _ ≤ ec + (r + 1) := by omega

/-- C2: for every oracle pair and every `max_iterations = n ≥ 0`,
`process_sentence` terminates (it is a total function of this model),
invokes the extractor at most `n + 1` times, and ends in exactly one of
the three terminal outcomes. -/
theorem revision_loop_bounded {α : Type} (ag : AgentOracle α) (n : Nat) :
    (processSentence ag n).extractCalls ≤ n + 1 ∧
    ((processSentence ag n).status = RunStatus.accepted ∨
     (processSentence ag n).status = RunStatus.maxIterationsReached ∨
     (processSentence ag n).status = RunStatus.extractionFailed) := by
  constructor
  · unfold processSentence
    cases hx : ag.extractResp with
    | error e => simp
    | ok t =>
      calc (processLoop ag n n 0 t [] 1).extractCalls
          ≤ 1 + n := processLoop_extractCalls_le ag n n 0 t [] 1
        _ = n + 1 := by omega
  · cases hs : (processSentence ag n).status with
    | accepted => exact Or.inl rfl
    | maxIterationsReached => exact Or.inr (Or.inl rfl)
    | extractionFailed => exact Or.inr (Or.inr rfl)

/-! ## C5: which extractor faults are terminal -/

/-- C5 (amended): a hard fault of the *initial* extraction is terminal —
the run ends `ExtractionFailed` immediately, with no validation attempt
and no further extractor call.  (A fault during a revision call is not:
`revise_triplet` swallows it and the loop continues, see the
counterexample.) -/
theorem initial_extraction_fault_terminal {α : Type} (ag : AgentOracle α)
    (n : Nat) (hx : ag.extractResp = Except.error ()) :
    processSentence ag n =
      { status := RunStatus.extractionFailed, iterations := 0,
        isValidFlag := false, finalTriplet := none, loopValidations := [],
        finalValidation := none, extractCalls := 1 } := by
  simp [processSentence, hx]

/-- C5 witness: a concrete run whose initial extraction raises. -/
theorem initial_extraction_fault_terminal_witness :
    agOracleFail.extractResp = Except.error () ∧
    processSentence agOracleFail 3 =
      { status := RunStatus.extractionFailed, iterations := 0,
        isValidFlag := false, finalTriplet := none, loopValidations := [],
        finalValidation := none, extractCalls := 1 } :=
  ⟨rfl, initial_extraction_fault_terminal agOracleFail 3 rfl⟩

/-- C5 counterexample: with `max_iterations = 2`, a run whose revision
call at iteration 1 raises does *not* end `ExtractionFailed`: the raised
revision is swallowed (the previous triplet is kept), a second validation
and a post-loop revalidation still happen, and the run ends exhausted. -/
theorem revision_fault_not_terminal :
    (processSentence agOracleC5 2).status = RunStatus.maxIterationsReached ∧
    (processSentence agOracleC5 2).loopValidations = [false, false] ∧
    (processSentence agOracleC5 2).extractCalls = 2 ∧
    (processSentence agOracleC5 2).status ≠ RunStatus.extractionFailed :=
  ⟨rfl, rfl, rfl, by decide⟩

/-! ## C6: acceptance versus the last validation outcome -/

theorem processLoop_accepted_iff {α : Type} (ag : AgentOracle α) (m : Nat) :
    ∀ (rem : Nat), 1 ≤ rem → ∀ (iter : Nat) (cur : α) (vals : List Bool),
      (∀ b ∈ vals, b = false) → ∀ (ec : Nat),
      ((processLoop ag m rem iter cur vals ec).status = RunStatus.accepted ↔
        (processLoop ag m rem iter cur vals ec).loopValidations.getLast? = some true) := by
  intro rem
  induction rem with
  | zero => intro h; omega
  | succ r ih =>
    intro _ iter cur vals hvals ec
    rw [processLoop]
    by_cases hv : ag.validateAt (iter + 1) cur
    · simp [hv, List.getLast?_reverse]
    · simp only [hv, if_false, Bool.false_eq_true]
      have hvals' : ∀ b ∈ (false :: vals), b = false := by
        intro b hb
        rcases List.mem_cons.mp hb with hb | hb
        · exact hb
        · exact hvals b hb
      by_cases hr : r ≥ 1
      · rw [if_pos hr]
        exact ih hr _ _ _ hvals' _
      · rw [if_neg hr]
        have hr0 : r = 0 := by omega
        subst hr0
        simp only [processLoop]
        constructor
        · intro hcontra; cases hcontra
        · intro hlast
          exfalso
          rw [List.getLast?_reverse] at hlast
          simp at hlast

/-- C6 (amended): for any run with `max_iterations ≥ 1` whose initial
extraction succeeded, the result is `Accepted` iff the last *in-loop*
validation outcome is valid; and if the very first validation is valid
the run uses exactly one attempt and is `Accepted`.  (An exhausted run
additionally performs a post-loop revalidation, which sets the reported
`is_valid` flag but not the status — see the counterexample.) -/
theorem acceptance_iff_last_loop_validation {α : Type} (ag : AgentOracle α)
    (n : Nat) (t : α) (hn : 1 ≤ n) (hx : ag.extractResp = Except.ok t) :
    (((processSentence ag n).status = RunStatus.accepted) ↔
      (processSentence ag n).loopValidations.getLast? = some true) ∧
    (ag.validateAt 1 t = true →
      (processSentence ag n).status = RunStatus.accepted ∧
      (processSentence ag n).iterations = 1) := by
  have hps : processSentence ag n = processLoop ag n n 0 t [] 1 := by
    simp [processSentence, hx]
  rw [hps]
  constructor
  · exact processLoop_accepted_iff ag n n hn 0 t [] (by simp) 1
  · intro hv
    obtain ⟨r, rfl⟩ : ∃ r, n = r + 1 := ⟨n - 1, by omega⟩
    rw [processLoop]
    simp [hv]

/-- C6 witness: a run that accepts on the first attempt. -/
theorem acceptance_iff_witness :
    ((((processSentence agOracleC6 1).status = RunStatus.accepted) ↔
       (processSentence agOracleC6 1).loopValidations.getLast? = some true) ∧
     (agOracleC6.validateAt 1 () = true →
       (processSentence agOracleC6 1).status = RunStatus.accepted ∧
       (processSentence agOracleC6 1).iterations = 1)) :=
  acceptance_iff_last_loop_validation agOracleC6 1 () (Nat.le_refl 1) rfl

/-- C6 counterexample: with `max_iterations = 0` the loop never runs; the
only validation outcome produced in the run is the post-loop revalidation,
it is valid (`some true` is the last produced outcome), yet the run's
result is `max_iterations_reached`, not `Accepted` — refuting
"Accepted iff the last validation outcome is valid" as stated for every
`max_iterations ≥ 0`. -/
theorem valid_last_outcome_but_exhausted :
    allValidations (processSentence agOracleC6 0) = [true] ∧
    (processSentence agOracleC6 0).status = RunStatus.maxIterationsReached ∧
    (processSentence agOracleC6 0).status ≠ RunStatus.accepted :=
  ⟨rfl, rfl, by decide⟩

/-! ## C3: oracle-judgment decoding -/

/-- C3 (amended): a *raised* judge call fail-opens to `valid = true`;
an undecodable judge response does not — it falls back to the keyword
heuristic `textFallback` (which can and does return `valid = false`). -/
theorem model_validation_fallback (jdec : List Char → Option Verdict)
    (r : List Char) :
    getModelValidation (Except.error ()) jdec =
      { valid := true, missing_info := [], suggestions := [] } ∧
    (jsonSlice r = none →
      getModelValidation (Except.ok r) jdec = textFallback r) ∧
    (∀ js, jsonSlice r = some js → jdec js = none →
      getModelValidation (Except.ok r) jdec = textFallback r) := by
  refine ⟨rfl, ?_, ?_⟩
  · intro h
    simp [getModelValidation, h]
  · intro js h hj
    simp [getModelValidation, h, hj]

/-- C3 witness: a concrete raised call and a concrete brace-free response. -/
theorem model_validation_fallback_witness :
    getModelValidation (Except.error ()) (fun _ => none) =
      { valid := true, missing_info := [], suggestions := [] } ∧
    getModelValidation (Except.ok ("no verdict here".data)) (fun _ => none) =
      textFallback ("no verdict here".data) :=
  ⟨(model_validation_fallback (fun _ => none) ("no verdict here".data)).1,
   (model_validation_fallback (fun _ => none) ("no verdict here".data)).2.1 (by decide)⟩

/-- C3 counterexample: on a response that cannot be decoded into the
expected verdict structure (it has no brace block at all), the oracle
sub-check returns `valid = false`, not `valid = true` as claimed: the
fallback is a keyword heuristic, not fail-open. -/
theorem oracle_judgment_not_fail_open :
    (getModelValidation (Except.ok ("plain refusal text".data)) (fun _ => none)).valid
      = false := by decide

/-! ## C8: aggregate validity -/

/-- C8 (amended): for every sentence and every triplet whose `predicate`
field is not `None`, `validate_triplet` returns a record carrying all five
sub-results, whose `is_valid` is the conjunction of their `valid` flags.
(With a `None` predicate the call raises instead — see the
counterexample.) -/
theorem validate_aggregates_five (sentence : List Char) (t : TripletData)
    (resp : Except Unit (List Char)) (jdec : List Char → Option Verdict)
    (p : List Char) (hp : t.predicate = some p) :
    ∃ r : ValidationResult,
      validateTriplet sentence t resp jdec = Except.ok r ∧
      r.structure_check = checkStructure t ∧
      r.argument_integrity_check = checkArgumentIntegrity sentence t ∧
      checkSemanticCompleteness sentence t = Except.ok r.completeness_check ∧
      r.recoverability_check = checkRecoverability sentence t ∧
      r.model_feedback = getModelValidation resp jdec ∧
      r.is_valid = (r.structure_check.valid && r.argument_integrity_check.valid &&
        r.completeness_check.valid && r.recoverability_check.valid &&
        r.model_feedback.valid) := by
  have hcc : ∃ cc, checkSemanticCompleteness sentence t = Except.ok cc := by
    rw [checkSemanticCompleteness, hp]
    exact ⟨_, rfl⟩
  obtain ⟨cc, hcc⟩ := hcc
  unfold validateTriplet
  rw [hcc]
  exact ⟨_, rfl, rfl, rfl, rfl, rfl, rfl, rfl⟩

/-- C8 witness: aggregate validity at the scenario-2 sentence/triplet
with a raised model call. -/
theorem validate_aggregates_five_witness :
    ∃ r : ValidationResult,
      validateTriplet sentenceS2 tripletS2 (Except.error ()) (fun _ => none) =
        Except.ok r ∧
      r.structure_check = checkStructure tripletS2 ∧
      r.argument_integrity_check = checkArgumentIntegrity sentenceS2 tripletS2 ∧
      checkSemanticCompleteness sentenceS2 tripletS2 = Except.ok r.completeness_check ∧
      r.recoverability_check = checkRecoverability sentenceS2 tripletS2 ∧
      r.model_feedback = getModelValidation (Except.error ()) (fun _ => none) ∧
      r.is_valid = (r.structure_check.valid && r.argument_integrity_check.valid &&
        r.completeness_check.valid && r.recoverability_check.valid &&
        r.model_feedback.valid) :=
  validate_aggregates_five sentenceS2 tripletS2 (Except.error ()) (fun _ => none)
    ("钉住".data) rfl

/-- C8 counterexample: on a soft-parse-failure triplet (`predicate = None`
— an input the spec explicitly routes into the validator),
`validate_triplet` does not return any record at all: the unguarded
`triplet.get('predicate', '').lower()` in `_check_semantic_completeness`
raises `AttributeError`. -/
theorem validate_raises_on_none_predicate :
    validateTriplet ("天气".data) tripletNoPred (Except.ok []) (fun _ => none) =
      Except.error () := rfl

/-! ## C4: end-to-end scenario 2 -/

/-- C4 counterexample: on scenario 2 the semantic-completeness check does
*not* pass: the location trigger `地` occurs in the sentence (inside
`仔细地`) while the mods carry no `location` key, so the check returns
`valid = false` with the missing-location issue. -/
theorem scenario2_completeness_fails :
    checkSemanticCompleteness sentenceS2 tripletS2 =
      Except.ok { valid := false
                , issues := [ "句子中有地点信息但三元组缺失location修饰语".data ] } := rfl

/-- C4 (amended): on scenario 2 the structural check and the
argument-integrity check pass, but the semantic-completeness check fails
with exactly the missing-`location` issue (triggered by `地` in
`仔细地`). -/
theorem scenario2_checks :
    (checkStructure tripletS2).valid = true ∧
    (checkArgumentIntegrity sentenceS2 tripletS2).valid = true ∧
    checkSemanticCompleteness sentenceS2 tripletS2 =
      Except.ok { valid := false
                , issues := [ "句子中有地点信息但三元组缺失location修饰语".data ] } :=
  ⟨rfl, rfl, rfl⟩

/-! ## C1: the round-trip law.

First the counterexample to the unguarded law, then the lemma layer for
the guarded version. -/

/-- C1 counterexample: the parse of `{} f({a="b"}, y)` has empty mods and
subject text containing a brace-enclosed pair; `format` omits the braces
block (mods are empty), so re-parsing reads the pair inside the subject as
a modifier: `parse(format(t))` differs from `t` on `mods`. -/
theorem roundtrip_fails_unguarded :
    (parseTriplet ("\x7b\x7d f(\x7ba=\"b\"\x7d, y)".data) []).mods = [] ∧
    (parseTriplet
        (formatTriplet (parseTriplet ("\x7b\x7d f(\x7ba=\"b\"\x7d, y)".data) []))
        []).mods = [ ("a".data, "b".data) ] ∧
    (parseTriplet
        (formatTriplet (parseTriplet ("\x7b\x7d f(\x7ba=\"b\"\x7d, y)".data) []))
        []).mods ≠
      (parseTriplet ("\x7b\x7d f(\x7ba=\"b\"\x7d, y)".data) []).mods := by
  refine ⟨by decide, by decide, by decide⟩

theorem word_not_space {c : Char} (h : isWordChar c = true) : isSpaceChar c = false := by
  cases hs : isSpaceChar c with
  | false => rfl
  | true =>
    exfalso
    have hc : ((c = ' ' ∨ c = '\t') ∨ c = '\x0d') ∨ c = '\n' := by
      have hs' := hs
      unfold isSpaceChar Char.isWhitespace at hs'
      simpa [Bool.or_eq_true, decide_eq_true_eq] using hs'
    rcases hc with ((rfl | rfl) | rfl) | rfl <;> exact absurd h (by decide)

theorem run_split {k w : List Char} {d : Char}
    (hk : ∀ c ∈ k, isWordChar c = true) (hd : isWordChar d = false) :
    (k ++ d :: w).takeWhile isWordChar = k ∧
    (k ++ d :: w).dropWhile isWordChar = d :: w := by
  have hd' : ¬ isWordChar d = true := by simp [hd]
  constructor
  · rw [List.takeWhile_append_of_pos hk, List.takeWhile_cons_of_neg hd', List.append_nil]
  · rw [List.dropWhile_append_of_pos hk, List.dropWhile_cons_of_neg hd']

theorem takeUntil_parts_length {c : Char} {l a b : List Char}
    (h : takeUntil c l = some (a, b)) : a.length + 1 + b.length = l.length := by
  have := takeUntil_parts h
  subst this
  simp
  omega

theorem scanPairsF_congr : ∀ (f g : Nat) (l : List Char),
    l.length ≤ f → l.length ≤ g → scanPairsF f l = scanPairsF g l := by
  intro f
  induction f with
  | zero =>
    intro g l hf _
    have hl : l = [] := List.length_eq_zero.mp (by omega)
    subst hl
    cases g <;> rfl
  | succ f ih =>
    intro g l hf hg
    cases l with
    | nil => cases g <;> rfl
    | cons c rest =>
      cases g with
      | zero => simp at hg
      | succ g' =>
        have hrest_f : rest.length ≤ f := by
          have := hf; simp at this; omega
        have hrest_g : rest.length ≤ g' := by
          have := hg; simp at this; omega
        rw [scanPairsF, scanPairsF]
        by_cases hw : isWordChar c = true
        · rw [if_pos hw, if_pos hw]
          split
          · next tail heq =>
            have htail : tail.length + 2 ≤ rest.length + 1 := by
              have hle : ((c :: rest).dropWhile isWordChar).length ≤ rest.length + 1 := by
                have := (List.dropWhile_sublist (l := c :: rest) (p := isWordChar)).length_le
                simpa using this
              rw [heq] at hle
              simpa using hle
            split
            · next v rest2 heq2 =>
              have hlen2 := takeUntil_parts_length heq2
              have h2f : rest2.length ≤ f := by omega
              have h2g : rest2.length ≤ g' := by omega
              rw [ih g' rest2 h2f h2g]
            · next => rw [ih g' rest hrest_f hrest_g]
          · next => rw [ih g' rest hrest_f hrest_g]
        · rw [if_neg hw, if_neg hw]
          exact ih g' rest hrest_f hrest_g

theorem scanPairsF_eq_scanPairs {f : Nat} {l : List Char} (h : l.length ≤ f) :
    scanPairsF f l = scanPairs l :=
  scanPairsF_congr f l.length l h (Nat.le_refl _)

theorem scanPairs_cons_not_word {c : Char} {rest : List Char}
    (h : isWordChar c = false) : scanPairs (c :: rest) = scanPairs rest := by
  show scanPairsF (rest.length + 1) (c :: rest) = _
  rw [scanPairsF, if_neg (by simp [h])]
  rfl

theorem scanPairs_pair {k v r : List Char} (hk1 : k ≠ [])
    (hk2 : ∀ c ∈ k, isWordChar c = true) (hv : '"' ∉ v) :
    scanPairs (k ++ '=' :: '"' :: v ++ '"' :: r) = (k, v) :: scanPairs r := by
  obtain ⟨c, k', rfl⟩ : ∃ c k', k = c :: k' := by
    cases k with
    | nil => exact absurd rfl hk1
    | cons c k' => exact ⟨c, k', rfl⟩
  have hw : isWordChar c = true := hk2 c (List.mem_cons_self c k')
  have heqd : isWordChar '=' = false := by decide
  have hsplit := run_split (k := c :: k') (w := '"' :: (v ++ '"' :: r))
    (d := '=') hk2 heqd
  have hTU : takeUntil '"' (v ++ '"' :: r) = some (v, r) := takeUntil_append r hv
  simp only [List.cons_append, List.append_assoc] at hsplit ⊢
  show scanPairsF ((k' ++ '=' :: '"' :: (v ++ '"' :: r)).length + 1)
      (c :: (k' ++ '=' :: '"' :: (v ++ '"' :: r))) = _
  rw [scanPairsF, if_pos hw, hsplit.2, hsplit.1]
  simp only [hTU]
  have hlen : r.length ≤ (k' ++ '=' :: '"' :: (v ++ '"' :: r)).length := by
    simp
    omega
  rw [scanPairsF_eq_scanPairs hlen]

theorem findCall_cons_not_word {c : Char} {rest : List Char}
    (h : isWordChar c = false) : findCall (c :: rest) = findCall rest := by
  rw [findCall, if_neg (by simp [h])]

theorem dropWhile_head_in {p : Char → Bool} :
    ∀ (x y : List Char), (∃ d ∈ x, p d = false) →
      ∃ d t, (x ++ y).dropWhile p = d :: t ∧ d ∈ x ∧ p d = false
  | [], _, hex => absurd hex (by simp)
  | e :: x', y, hex => by
    by_cases hpe : p e = true
    · have hex' : ∃ d ∈ x', p d = false := by
        obtain ⟨d, hd, hdp⟩ := hex
        rcases List.mem_cons.mp hd with rfl | hd'
        · rw [hpe] at hdp; cases hdp
        · exact ⟨d, hd', hdp⟩
      obtain ⟨d, t, heq, hdm, hdp⟩ := dropWhile_head_in x' y hex'
      refine ⟨d, t, ?_, List.mem_cons_of_mem _ hdm, hdp⟩
      rw [List.cons_append, List.dropWhile_cons_of_pos hpe, heq]
    · have hpe' : p e = false := by
        cases hh : p e with
        | false => rfl
        | true => exact absurd hh hpe
      refine ⟨e, x' ++ y, ?_, List.mem_cons_self e x', hpe'⟩
      rw [List.cons_append, List.dropWhile_cons_of_neg hpe]

theorem mem_of_getLast?_lc : ∀ {l : List Char} {a : Char}, l.getLast? = some a → a ∈ l
  | [], a, h => by simp at h
  | [x], a, h => by
    simp [List.getLast?] at h
    simp [h]
  | x :: y :: l, a, h => by
    rw [List.getLast?_cons_cons] at h
    exact List.mem_cons_of_mem _ (mem_of_getLast?_lc h)

theorem findCall_skip : ∀ (a b : List Char), (∀ c ∈ a, c ≠ '(') →
    (∀ d, a.getLast? = some d → isWordChar d = false) →
    findCall (a ++ b) = findCall b
  | [], _, _, _ => rfl
  | [c], b, _, hlast => by
    have hcw : isWordChar c = false := hlast c rfl
    rw [List.cons_append, List.nil_append, findCall_cons_not_word hcw]
  | c :: c' :: a'', b, hpar, hlast => by
    have hpar' : ∀ x ∈ c' :: a'', x ≠ '(' :=
      fun x hx => hpar x (List.mem_cons_of_mem _ hx)
    have hlast' : ∀ d, (c' :: a'').getLast? = some d → isWordChar d = false := by
      intro d hd
      exact hlast d (by rw [List.getLast?_cons_cons]; exact hd)
    have hrec := findCall_skip (c' :: a'') b hpar' hlast'
    by_cases hw : isWordChar c = true
    · -- the first non-word char of the whole list lies inside `c :: c' :: a''`
      have hex : ∃ d ∈ c :: c' :: a'', isWordChar d = false := by
        obtain ⟨d0, hd0⟩ : ∃ d0, (c :: c' :: a'').getLast? = some d0 := by
          rw [List.getLast?_cons_cons]
          exact Option.isSome_iff_exists.mp (by
            rw [List.getLast?_isSome]
            exact List.cons_ne_nil c' a'')
        exact ⟨d0, mem_of_getLast?_lc hd0, hlast d0 hd0⟩
      obtain ⟨d, t, heq, hdm, hdw⟩ :=
        dropWhile_head_in (p := isWordChar) (c :: c' :: a'') b hex
      have hdpar : d ≠ '(' := hpar d hdm
      rw [List.cons_append, findCall, if_pos hw]
      rw [show (c :: ((c' :: a'') ++ b)) = (c :: c' :: a'') ++ b from rfl, heq]
      split
      · next heq2 =>
        exfalso
        injection heq2 with hinj _
        exact hdpar hinj
      · exact hrec
    · have hw' : isWordChar c = false := by
        cases hh : isWordChar c with
        | false => rfl
        | true => exact absurd hh hw
      rw [List.cons_append, findCall_cons_not_word hw']
      exact hrec

theorem findCall_head {k sR oR : List Char} (hk1 : k ≠ [])
    (hk2 : ∀ c ∈ k, isWordChar c = true) (hs : ',' ∉ sR) (ho1 : ')' ∉ oR)
    (ho2 : ∀ d, oR.head? = some d → isSpaceChar d = false) (ho3 : oR ≠ []) :
    findCall (k ++ '(' :: sR ++ ',' :: ' ' :: oR ++ [ ')' ]) = some (k, sR, oR) := by
  obtain ⟨c, k', rfl⟩ : ∃ c k', k = c :: k' := by
    cases k with
    | nil => exact absurd rfl hk1
    | cons c k' => exact ⟨c, k', rfl⟩
  obtain ⟨d, oR', rfl⟩ : ∃ d oR', oR = d :: oR' := by
    cases oR with
    | nil => exact absurd rfl ho3
    | cons d oR' => exact ⟨d, oR', rfl⟩
  have hw : isWordChar c = true := hk2 c (List.mem_cons_self c k')
  have hparw : isWordChar '(' = false := by decide
  have hsplit := run_split (k := c :: k')
    (w := sR ++ ',' :: ' ' :: d :: (oR' ++ [ ')' ])) (d := '(') hk2 hparw
  have hTUs : takeUntil ',' (sR ++ ',' :: ' ' :: d :: (oR' ++ [ ')' ])) =
      some (sR, ' ' :: d :: (oR' ++ [ ')' ])) :=
    takeUntil_append (' ' :: d :: (oR' ++ [ ')' ])) hs
  have hdns : isSpaceChar d = false := ho2 d rfl
  have hTUo : takeUntil ')' (d :: (oR' ++ [ ')' ])) = some (d :: oR', []) := by
    have h0 := takeUntil_append (a := d :: oR') (c := ')') [] ho1
    simpa using h0
  simp only [List.cons_append, List.append_assoc] at hsplit ⊢
  rw [findCall, if_pos hw, hsplit.2]
  simp only [hTUs]
  rw [List.dropWhile_cons_of_pos (by decide : isSpaceChar ' ' = true)]
  rw [List.dropWhile_cons_of_neg (by simp [hdns])]
  simp only [hTUo, hsplit.1]

theorem goodKeyB_spec {k : List Char} (h : goodKeyB k = true) :
    k ≠ [] ∧ ∀ c ∈ k, isWordChar c = true := by
  have h' := h
  unfold goodKeyB at h'
  simp only [Bool.and_eq_true] at h'
  obtain ⟨h1, h2⟩ := h'
  constructor
  · intro he; subst he; simp at h1
  · exact List.all_eq_true.mp h2

theorem goodValB_spec {v : List Char} (h : goodValB v = true) :
    ∀ c ∈ v, isWordChar c = true ∨ c = ' ' := by
  intro c hc
  have hx := List.all_eq_true.mp h c hc
  have hor : isWordChar c = true ∨ (c == ' ') = true := by
    simpa using hx
  rcases hor with hw | hsp
  · exact Or.inl hw
  · exact Or.inr (by simpa using hsp)

theorem goodValB_no_quote {v : List Char} (h : goodValB v = true) : '"' ∉ v := by
  intro hm
  exact absurd (List.all_eq_true.mp h _ hm) (by decide)

theorem scanPairs_joinSep : ∀ (ps : List (List Char × List Char)),
    (∀ kv ∈ ps, goodKeyB kv.1 = true ∧ goodValB kv.2 = true) →
    scanPairs (joinSep (", ".data) (ps.map renderPair)) = ps
  | [], _ => rfl
  | [p], h => by
    have hk := goodKeyB_spec (h p (List.mem_cons_self p [])).1
    have hv := goodValB_no_quote (h p (List.mem_cons_self p [])).2
    show scanPairs (renderPair p) = [p]
    have hpair := scanPairs_pair (k := p.1) (v := p.2) (r := []) hk.1 hk.2 hv
    simpa [renderPair] using hpair
  | p :: q :: ps, h => by
    have hk := goodKeyB_spec (h p (List.mem_cons_self p (q :: ps))).1
    have hv := goodValB_no_quote (h p (List.mem_cons_self p (q :: ps))).2
    have ih := scanPairs_joinSep (q :: ps)
      (fun kv hkv => h kv (List.mem_cons_of_mem _ hkv))
    have hpair := scanPairs_pair (k := p.1) (v := p.2)
      (r := ',' :: ' ' :: joinSep (", ".data) ((q :: ps).map renderPair)) hk.1 hk.2 hv
    have hsep : (", ".data : List Char) = ',' :: ' ' :: [] := rfl
    show scanPairs (renderPair p ++ ", ".data ++
        joinSep (", ".data) ((q :: ps).map renderPair)) = p :: q :: ps
    rw [hsep]
    simp only [renderPair, List.cons_append, List.append_assoc,
      List.nil_append] at hpair ⊢
    rw [hpair]
    rw [scanPairs_cons_not_word (by decide), scanPairs_cons_not_word (by decide)]
    rw [hsep] at ih
    rw [ih]

theorem foldl_insertMod_eq : ∀ (ps acc : List (List Char × List Char)),
    (∀ p ∈ ps, ∀ q ∈ acc, p.1 ≠ q.1) → nodupKeysB ps = true →
    ps.foldl insertMod acc = acc ++ ps
  | [], acc, _, _ => by simp
  | p :: ps, acc, hdisj, hnd => by
    have hnd' := hnd
    unfold nodupKeysB at hnd'
    simp only [Bool.and_eq_true, Bool.not_eq_true'] at hnd'
    obtain ⟨hfreshp, hndps⟩ := hnd'
    have hany : acc.any (fun q => q.1 == p.1) = false := by
      cases hv : acc.any (fun q => q.1 == p.1) with
      | false => rfl
      | true =>
        exfalso
        obtain ⟨q, hq, hqe⟩ := List.any_eq_true.mp hv
        have hq1 : q.1 = p.1 := by simpa using hqe
        exact hdisj p (List.mem_cons_self p ps) q hq hq1.symm
    have hstep : insertMod acc p = acc ++ [p] := by
      unfold insertMod
      rw [if_neg (by simp [hany])]
    have hdisj' : ∀ x ∈ ps, ∀ q ∈ acc ++ [p], x.1 ≠ q.1 := by
      intro x hx q hq
      rcases List.mem_append.mp hq with hq | hq
      · exact hdisj x (List.mem_cons_of_mem _ hx) q hq
      · have : q = p := by simpa using hq
        subst this
        intro he
        have hxfresh : (x.1 == q.1) = false := by
          have := List.any_eq_false.mp hfreshp ⟨x.1, x.2⟩ hx
          simpa using this
        rw [he] at hxfresh
        simp at hxfresh
    calc (p :: ps).foldl insertMod acc = ps.foldl insertMod (insertMod acc p) := rfl
      _ = ps.foldl insertMod (acc ++ [p]) := by rw [hstep]
      _ = (acc ++ [p]) ++ ps := foldl_insertMod_eq ps (acc ++ [p]) hdisj' hndps
      _ = acc ++ p :: ps := by simp

theorem mem_joinSep {sep : List Char} {c : Char} :
    ∀ {xs : List (List Char)}, c ∈ joinSep sep xs → c ∈ sep ∨ ∃ x ∈ xs, c ∈ x := by
  intro xs
  induction xs with
  | nil => intro h; simp [joinSep] at h
  | cons x ys ih =>
    intro h
    cases ys with
    | nil =>
      refine Or.inr ⟨x, by simp, ?_⟩
      simpa [joinSep] using h
    | cons y xs' =>
      rw [joinSep] at h
      rcases List.mem_append.mp h with h1 | h2
      · rcases List.mem_append.mp h1 with ha | hb
        · exact Or.inr ⟨x, by simp, ha⟩
        · exact Or.inl hb
      · rcases ih h2 with hs | ⟨z, hz, hcz⟩
        · exact Or.inl hs
        · exact Or.inr ⟨z, List.mem_cons_of_mem _ hz, hcz⟩

theorem modsStr_chars {ps : List (List Char × List Char)}
    (h : ∀ kv ∈ ps, goodKeyB kv.1 = true ∧ goodValB kv.2 = true) :
    ∀ c ∈ joinSep (", ".data) (ps.map renderPair), modsChar c = true := by
  intro c hc
  rcases mem_joinSep hc with hs | ⟨x, hx, hcx⟩
  · have : c = ',' ∨ c = ' ' := by simpa using hs
    rcases this with rfl | rfl <;> decide
  · obtain ⟨p, hp, rfl⟩ := List.mem_map.mp hx
    have hpk := goodKeyB_spec (h p hp).1
    have hpv := goodValB_spec (h p hp).2
    have hcx' : c ∈ p.1 ∨ c = '=' ∨ c = '"' ∨ c ∈ p.2 := by
      simp only [renderPair, List.mem_append, List.mem_cons,
        List.not_mem_nil, or_false] at hcx
      tauto
    rcases hcx' with hm | rfl | rfl | hm
    · have := hpk.2 c hm
      simp [modsChar, this]
    · decide
    · decide
    · rcases hpv c hm with hw | rfl
      · simp [modsChar, hw]
      · decide

theorem not_mem_of_all {P : Char → Bool} {l : List Char}
    (h : ∀ c ∈ l, P c = true) {d : Char} (hd : P d = false) : d ∉ l := by
  intro hm
  rw [h d hm] at hd
  cases hd

theorem mem_of_head?_lc {l : List Char} {d : Char} (h : l.head? = some d) : d ∈ l := by
  cases l with
  | nil => simp at h
  | cons a l' =>
    have : a = d := by simpa using h
    subst this
    exact List.mem_cons_self a l'

theorem goodArgB_spec {s : List Char} (h : goodArgB s = true) :
    s ≠ [] ∧ (∀ c ∈ s, isWordChar c = true ∨ c = ' ') ∧
    (∀ d, s.head? = some d → d ≠ ' ') ∧ (∀ d, s.getLast? = some d → d ≠ ' ') ∧
    lowerLC s ≠ "null".data := by
  have h' := h
  unfold goodArgB at h'
  simp only [Bool.and_eq_true] at h'
  obtain ⟨⟨⟨⟨h1, h2⟩, h3⟩, h4⟩, h5⟩ := h'
  refine ⟨?_, ?_, ?_, ?_, ?_⟩
  · intro he; subst he; simp at h1
  · intro c hc
    have hx := List.all_eq_true.mp h2 c hc
    have hor : isWordChar c = true ∨ (c == ' ') = true := by simpa using hx
    rcases hor with hw | hsp
    · exact Or.inl hw
    · exact Or.inr (by simpa using hsp)
  · intro d hd he
    subst he
    rw [hd] at h3
    simp at h3
  · intro d hd he
    subst he
    rw [hd] at h4
    simp at h4
  · intro he
    rw [he] at h5
    simp at h5

theorem stripLC_eq_self {s : List Char}
    (hall : ∀ c ∈ s, isWordChar c = true ∨ c = ' ')
    (hh : ∀ d, s.head? = some d → d ≠ ' ')
    (hl : ∀ d, s.getLast? = some d → d ≠ ' ') : stripLC s = s := by
  cases s with
  | nil => rfl
  | cons a s' =>
    have haw : isSpaceChar a = false := by
      rcases hall a (List.mem_cons_self a s') with hw | he
      · exact word_not_space hw
      · exact absurd he (hh a rfl)
    have h1 : (a :: s').dropWhile isSpaceChar = a :: s' :=
      List.dropWhile_cons_of_neg (by simp [haw])
    unfold stripLC
    rw [h1]
    cases hrev : (a :: s').reverse with
    | nil => simp at hrev
    | cons b t =>
      have hbl : (a :: s').getLast? = some b := by
        rw [← List.head?_reverse, hrev]
        rfl
      have hbw : isSpaceChar b = false := by
        have hbm : b ∈ a :: s' := mem_of_getLast?_lc hbl
        rcases hall b hbm with hw | he
        · exact word_not_space hw
        · exact absurd he (hl b hbl)
      rw [List.dropWhile_cons_of_neg (by simp [hbw]), ← hrev,
        List.reverse_reverse]

theorem isEmpty_false_of_ne {s : List Char} (h : s ≠ []) : s.isEmpty = false := by
  cases s with
  | nil => exact absurd rfl h
  | cons a l => rfl

theorem cleanArg_of_goodArg {s : List Char} (h : goodArgB s = true) :
    cleanArg s = some s := by
  obtain ⟨h1, h2, h3, h4, h5⟩ := goodArgB_spec h
  have hstrip : stripLC s = s := stripLC_eq_self h2 h3 h4
  unfold cleanArg
  simp only [hstrip]
  rw [if_neg (by simp [isEmpty_false_of_ne h1]), if_neg h5]

/-- Facts about a rendered argument `pyOr x "null"`: its characters, its
nonemptiness, its non-space head, and that `cleanArg` undoes the
rendering. -/
theorem pyOr_arg_spec : ∀ (x : Option (List Char)),
    (∀ s, x = some s → goodArgB s = true) →
    (∀ c ∈ pyOr x ("null".data), isWordChar c = true ∨ c = ' ') ∧
    pyOr x ("null".data) ≠ [] ∧
    (∀ d, (pyOr x ("null".data)).head? = some d → isSpaceChar d = false) ∧
    cleanArg (pyOr x ("null".data)) = x
  | none, _ => by
    refine ⟨?_, by decide, ?_, by decide⟩
    · intro c hc
      have : c = 'n' ∨ c = 'u' ∨ c = 'l' ∨ c = 'l' := by
        simpa [pyOr] using hc
      rcases this with rfl | rfl | rfl | rfl <;> exact Or.inl (by decide)
    · intro d hd
      have hnd : 'n' = d := by simpa [pyOr] using hd
      rw [← hnd]
      decide
  | some s, h => by
    have hg := h s rfl
    obtain ⟨h1, h2, h3, h4, h5⟩ := goodArgB_spec hg
    have hp : pyOr (some s) ("null".data) = s := by
      simp [pyOr, isEmpty_false_of_ne h1]
    rw [hp]
    refine ⟨h2, h1, ?_, cleanArg_of_goodArg hg⟩
    intro d hd
    rcases h2 d (mem_of_head?_lc hd) with hw | he
    · exact word_not_space hw
    · exact absurd he (h3 d hd)

theorem takeUntil_head (c : Char) (xs : List Char) :
    takeUntil c (c :: xs) = some ([], xs) := by
  simp [takeUntil]

theorem renderPair_ne_nil (p : List Char × List Char) : renderPair p ≠ [] := by
  simp [renderPair]

theorem joinSep_cons_ne_nil (sep : List Char) (x : List Char)
    (xs : List (List Char)) (hx : x ≠ []) : joinSep sep (x :: xs) ≠ [] := by
  cases xs with
  | nil => simpa [joinSep] using hx
  | cons y ys =>
    rw [joinSep]
    intro hc
    rcases List.append_eq_nil.mp (List.append_eq_nil.mp hc).1 with ⟨hx0, _⟩
    exact hx hx0

theorem call_char_cases {p sR oR : List Char} {c : Char}
    (hm : c ∈ p ++ '(' :: sR ++ ',' :: ' ' :: oR ++ [ ')' ]) :
    c ∈ p ∨ c ∈ sR ∨ c ∈ oR ∨ c = '(' ∨ c = ')' ∨ c = ',' ∨ c = ' ' := by
  simp only [List.mem_append, List.mem_cons, List.not_mem_nil, or_false] at hm
  tauto

/-- The serialized call of a well-formed triplet: `findCall` recovers the
three groups, and every character of the call is a plain call character. -/
theorem parse_call_core {p : List Char} {x o : Option (List Char)}
    (hgk : goodKeyB p = true)
    (hsub : ∀ s, x = some s → goodArgB s = true)
    (hobj : ∀ s, o = some s → goodArgB s = true) :
    findCall (p ++ '(' :: pyOr x ("null".data) ++ ',' :: ' ' ::
        pyOr o ("null".data) ++ [ ')' ]) =
      some (p, pyOr x ("null".data), pyOr o ("null".data)) ∧
    (∀ c ∈ (p ++ '(' :: pyOr x ("null".data) ++ ',' :: ' ' ::
        pyOr o ("null".data) ++ [ ')' ]), plainCallChar c = true) := by
  have hk := goodKeyB_spec hgk
  obtain ⟨hsC, hsNe, hsHd, _⟩ := pyOr_arg_spec x hsub
  obtain ⟨hoC, hoNe, hoHd, _⟩ := pyOr_arg_spec o hobj
  have hsComma : ',' ∉ pyOr x ("null".data) := by
    intro hm
    rcases hsC ',' hm with hw | he
    · exact absurd hw (by decide)
    · exact absurd he (by decide)
  have hoParen : ')' ∉ pyOr o ("null".data) := by
    intro hm
    rcases hoC ')' hm with hw | he
    · exact absurd hw (by decide)
    · exact absurd he (by decide)
  constructor
  · exact findCall_head hk.1 hk.2 hsComma hoParen hoHd hoNe
  · intro c hc
    rcases call_char_cases hc with hm | hm | hm | rfl | rfl | rfl | rfl
    · simp [plainCallChar, hk.2 c hm]
    · rcases hsC c hm with hw | rfl
      · simp [plainCallChar, hw]
      · decide
    · rcases hoC c hm with hw | rfl
      · simp [plainCallChar, hw]
      · decide
    · decide
    · decide
    · decide
    · decide

theorem parseMods_of_no_open {resp : List Char} (h : '{' ∉ resp) :
    parseMods resp = [] := by
  simp only [parseMods, modsInner, takeUntil_not_mem h]

theorem parseMods_shape {M Z : List Char} (hclose : '}' ∉ M) :
    parseMods ('{' :: (M ++ '}' :: Z)) = (scanPairs M).foldl insertMod [] := by
  simp only [parseMods, modsInner, takeUntil_head, takeUntil_append Z hclose]

theorem getLast?_append_singleton (l : List Char) (a : Char) :
    (l ++ [ a ]).getLast? = some a := by
  induction l with
  | nil => rfl
  | cons x xs ih =>
    rw [List.cons_append]
    cases hxs : xs ++ [ a ] with
    | nil => simp at hxs
    | cons y ys =>
      rw [List.getLast?_cons_cons, ← hxs, ih]

theorem findCall_pre {M : List Char} (call : List Char)
    (hM : ∀ c ∈ M, modsChar c = true) :
    findCall ('{' :: (M ++ '}' :: ' ' :: call)) = findCall call := by
  have hpar : ∀ c ∈ ('{' :: (M ++ [ '}', ' ' ])), c ≠ '(' := by
    intro c hc
    rcases List.mem_cons.mp hc with rfl | hc
    · decide
    · rcases List.mem_append.mp hc with hc | hc
      · have hmc := hM c hc
        intro he
        subst he
        exact absurd hmc (by decide)
      · have : c = '}' ∨ c = ' ' := by simpa using hc
        rcases this with rfl | rfl <;> decide
  have hlast : ∀ d, ('{' :: (M ++ [ '}', ' ' ])).getLast? = some d →
      isWordChar d = false := by
    intro d hd
    have hlg : ('{' :: (M ++ [ '}', ' ' ])).getLast? = some ' ' := by
      rw [show ('{' :: (M ++ [ '}', ' ' ])) = ('{' :: (M ++ [ '}' ])) ++ [ ' ' ] from by simp]
      exact getLast?_append_singleton _ _
    rw [hlg] at hd
    have hd' : ' ' = d := by simpa using hd
    rw [← hd']
    decide
  have hskip := findCall_skip ('{' :: (M ++ [ '}', ' ' ])) call hpar hlast
  have hshape : ('{' :: (M ++ [ '}', ' ' ])) ++ call = '{' :: (M ++ '}' :: ' ' :: call) := by
    simp
  rw [← hshape]
  exact hskip

theorem parse_fields_of_findCall {resp u p g2 g3 : List Char}
    (h : findCall resp = some (p, g2, g3)) :
    (parseTriplet resp u).subject = cleanArg g2 ∧
    (parseTriplet resp u).object = cleanArg g3 ∧
    (parseTriplet resp u).predicate = some p := by
  refine ⟨?_, ?_, ?_⟩ <;> simp [parseTriplet, h]

/-- C1 (amended): the round-trip law holds for every triplet whose fields
are plain DSL text — predicate a nonempty word-character run; subject and
object absent or nonempty word/space text with no edge spaces and not
spelling `null`; modifier keys nonempty word runs, pairwise distinct,
values word/space text.  `parse(format(t))` then reproduces `predicate`,
`subject`, `object` and `mods`.  (Unguarded, the law fails: see the
counterexample, where brace/quote material inside an argument re-parses
as modifiers.) -/
theorem roundtrip_guarded (t : TripletData) (h : wellFormedB t = true) :
    (parseTriplet (formatTriplet t) t.sentence).mods = t.mods ∧
    (parseTriplet (formatTriplet t) t.sentence).predicate = t.predicate ∧
    (parseTriplet (formatTriplet t) t.sentence).subject = t.subject ∧
    (parseTriplet (formatTriplet t) t.sentence).object = t.object := by
  cases hpred : t.predicate with
  | none =>
    exfalso
    rw [wellFormedB, hpred] at h
    simp at h
  | some p =>
    rw [wellFormedB, hpred] at h
    simp only [Bool.and_eq_true] at h
    obtain ⟨⟨⟨⟨hgk, hsubw⟩, hobjw⟩, hmodsall⟩, hnodup⟩ := h
    have hk := goodKeyB_spec hgk
    have hsub : ∀ s, t.subject = some s → goodArgB s = true := by
      intro s hs
      rw [hs] at hsubw
      exact hsubw
    have hobj : ∀ s, t.object = some s → goodArgB s = true := by
      intro s hs
      rw [hs] at hobjw
      exact hobjw
    have hmods' : ∀ kv ∈ t.mods, goodKeyB kv.1 = true ∧ goodValB kv.2 = true := by
      intro kv hkv
      have hx := List.all_eq_true.mp hmodsall kv hkv
      simpa [Bool.and_eq_true] using hx
    obtain ⟨hcall, hcallchars⟩ :=
      parse_call_core (p := p) (x := t.subject) (o := t.object) hgk hsub hobj
    obtain ⟨_, _, _, hsClean⟩ := pyOr_arg_spec t.subject hsub
    obtain ⟨_, _, _, hoClean⟩ := pyOr_arg_spec t.object hobj
    have hpredR : pyOr (some p) ("Unknown".data) = p := by
      simp [pyOr, isEmpty_false_of_ne hk.1]
    have hcallOpen : '{' ∉ (p ++ '(' :: pyOr t.subject ("null".data) ++ ',' :: ' ' ::
        pyOr t.object ("null".data) ++ [ ')' ]) :=
      not_mem_of_all hcallchars (by decide)
    cases hmods : t.mods with
    | nil =>
      have hF : formatTriplet t =
          p ++ '(' :: pyOr t.subject ("null".data) ++ ',' :: ' ' ::
            pyOr t.object ("null".data) ++ [ ')' ] := by
        simp only [formatTriplet, hmods, hpred, List.map_nil, joinSep,
          List.isEmpty_nil, if_true, hpredR]
      have hcallF : findCall (formatTriplet t) =
          some (p, pyOr t.subject ("null".data), pyOr t.object ("null".data)) := by
        rw [hF]
        exact hcall
      obtain ⟨hfs, hfo, hfp⟩ := parse_fields_of_findCall (u := t.sentence) hcallF
      refine ⟨?_, ?_, ?_, ?_⟩
      · show parseMods (formatTriplet t) = _
        rw [hF, parseMods_of_no_open hcallOpen]
      · rw [hfp]
      · rw [hfs, hsClean]
      · rw [hfo, hoClean]
    | cons q qs =>
      rw [hmods] at hmods' hnodup
      have hscan : scanPairs (joinSep [ ',', ' ' ] (renderPair q :: List.map renderPair qs))
          = q :: qs := by
        simpa using scanPairs_joinSep (q :: qs) hmods'
      have hfold : (q :: qs).foldl insertMod [] = q :: qs := by
        have hfe := foldl_insertMod_eq (q :: qs) []
          (by intro p' hp' q' hq'; simp at hq') hnodup
        simpa using hfe
      have hmchars : ∀ c ∈ joinSep [ ',', ' ' ] (renderPair q :: List.map renderPair qs),
          modsChar c = true := by
        have hmc := modsStr_chars hmods'
        simpa using hmc
      have hmne : joinSep [ ',', ' ' ] (renderPair q :: List.map renderPair qs) ≠ [] :=
        joinSep_cons_ne_nil _ _ _ (renderPair_ne_nil q)
      have hclose : '}' ∉ joinSep [ ',', ' ' ] (renderPair q :: List.map renderPair qs) :=
        not_mem_of_all hmchars (by decide)
      have hF : formatTriplet t =
          '{' :: (joinSep [ ',', ' ' ] (renderPair q :: List.map renderPair qs) ++ '}' :: ' ' ::
            (p ++ '(' :: pyOr t.subject ("null".data) ++ ',' :: ' ' ::
              pyOr t.object ("null".data) ++ [ ')' ])) := by
        simp only [formatTriplet, hmods, hpred, hpredR]
        rw [if_neg (by simpa using hmne)]
        simp only [List.map_cons, List.cons_append, List.append_assoc]
      have hcallF : findCall (formatTriplet t) =
          some (p, pyOr t.subject ("null".data), pyOr t.object ("null".data)) := by
        rw [hF, findCall_pre _ hmchars]
        exact hcall
      obtain ⟨hfs, hfo, hfp⟩ := parse_fields_of_findCall (u := t.sentence) hcallF
      refine ⟨?_, ?_, ?_, ?_⟩
      · show parseMods (formatTriplet t) = _
        rw [hF, parseMods_shape hclose, hscan, hfold]
      · rw [hfp]
      · rw [hfs, hsClean]
      · rw [hfo, hoClean]

/-- C1 witness: the guarded round-trip at the spec's end-to-end
scenario-1 triplet. -/
theorem roundtrip_guarded_witness :
    wellFormedB tripletRT = true ∧
    ((parseTriplet (formatTriplet tripletRT) tripletRT.sentence).mods = tripletRT.mods ∧
     (parseTriplet (formatTriplet tripletRT) tripletRT.sentence).predicate = tripletRT.predicate ∧
     (parseTriplet (formatTriplet tripletRT) tripletRT.sentence).subject = tripletRT.subject ∧
     (parseTriplet (formatTriplet tripletRT) tripletRT.sentence).object = tripletRT.object) :=
  ⟨by decide, roundtrip_guarded tripletRT (by decide)⟩
